import Mathlib

/-!
Verification of the decoding/framing core of `scripts/mitmproxy-addon.py`
(Cursor traffic analyzer).  The Python source is embedded shallowly:

* byte buffers (`bytes`) are `List Nat`, each element a byte value;
* `parse_varint(data, offset)` is `parse_varint`, written as a loop over the
  suffix `data.drop offset` with the running offset threaded through, exactly
  mirroring the `while offset < len(data)` loop of the source;
* `parse_proto_fields` is `parse_proto_fields` (the unbounded `while` loop is
  run with a fuel counter that starts at `data.length`; each iteration
  consumes at least one byte, so this fuel is never exhausted — a
  fuel-irrelevance lemma below makes this formal);
* the per-chunk gRPC frame loop of `modify_stream` is `scanFrames`;
* the semantic tables, `parse_tool_call`, `parse_tool_call_info`,
  `parse_partial_tool_call` and `parse_agent_message_detailed` are embedded
  under the same names (camel-cased where the gate requires), with Python
  dicts as association lists with Python's insert/overwrite semantics and
  the exceptions of `bytes.decode` as `Option` results of a strict UTF-8
  decoder.
-/

/-! ### Arithmetic facts about the bit operations used by the decoders -/

/-- Masking with `0x7F` is reduction modulo 128 (used by `parse_varint`). -/
theorem and_127_eq_mod (x : Nat) : x &&& 127 = x % 128 := by
  have h : x &&& (2 ^ 7 - 1) = x % 2 ^ 7 := by
    refine Nat.eq_of_testBit_eq fun i => ?_
    rw [Nat.testBit_and, Nat.testBit_two_pow_sub_one, Nat.testBit_mod_two_pow,
      Bool.and_comm]
  simpa using h

/-- Masking with `0x07` is reduction modulo 8 (wire-type extraction). -/
theorem and_7_eq_mod (x : Nat) : x &&& 7 = x % 8 := by
  have h : x &&& (2 ^ 3 - 1) = x % 2 ^ 3 := by
    refine Nat.eq_of_testBit_eq fun i => ?_
    rw [Nat.testBit_and, Nat.testBit_two_pow_sub_one, Nat.testBit_mod_two_pow,
      Bool.and_comm]
  simpa using h

/-- A byte below 128 has a clear high bit. -/
theorem and_128_eq_zero {x : Nat} (h : x < 128) : x &&& 128 = 0 := by
  have h2 : x &&& 2 ^ 7 = (x.testBit 7).toNat * 2 ^ 7 := Nat.and_two_pow x 7
  have h3 : x.testBit 7 = false := Nat.testBit_lt_two_pow (by norm_num [h])
  simpa [h3] using h2

/-- A byte in `[128, 256)` has a set high bit. -/
theorem and_128_ne_zero {x : Nat} (h1 : 128 ≤ x) (h2 : x < 256) :
    x &&& 128 ≠ 0 := by
  have h3 : x &&& 2 ^ 7 = (x.testBit 7).toNat * 2 ^ 7 := Nat.and_two_pow x 7
  have h4 : x.testBit 7 = true := by
    rw [Nat.testBit_to_div_mod]
    norm_num
    omega
  rw [show (128 : Nat) = 2 ^ 7 by norm_num, h3, h4]
  norm_num

/-- Bitwise or of a number below `2 ^ k` with a multiple of `2 ^ k` is
addition: the two arguments occupy disjoint bit ranges. -/
theorem lor_mul_pow_of_lt {a : Nat} (b k : Nat) (h : a < 2 ^ k) :
    a ||| b * 2 ^ k = a + b * 2 ^ k := by
  refine Nat.eq_of_testBit_eq fun i => ?_
  rw [Nat.testBit_lor]
  rcases lt_or_ge i k with hik | hik
  · have hb : (b * 2 ^ k).testBit i = false := by
      rw [← Nat.shiftLeft_eq, Nat.testBit_shiftLeft]
      simp [Nat.not_le.mpr hik]
    have hsplit : b * 2 ^ k = b * 2 ^ (k - i) * 2 ^ i := by
      rw [Nat.mul_assoc, ← pow_add]
      congr 2
      omega
    have hdiv : (a + b * 2 ^ k) / 2 ^ i = a / 2 ^ i + b * 2 ^ (k - i) := by
      rw [hsplit, Nat.add_mul_div_right _ _ (Nat.two_pow_pos i)]
    have hmod : (a / 2 ^ i + b * 2 ^ (k - i)) % 2 = a / 2 ^ i % 2 := by
      have h2 : b * 2 ^ (k - i) = 2 * (b * 2 ^ (k - i - 1)) := by
        rw [show (2 : Nat) ^ (k - i) = 2 * 2 ^ (k - i - 1) by
          rw [← pow_succ']
          congr 1
          omega]
        ring
      rw [h2]
      omega
    have hsum : (a + b * 2 ^ k).testBit i = a.testBit i := by
      rw [Nat.testBit_to_div_mod, Nat.testBit_to_div_mod, hdiv, hmod]
    rw [hsum, hb, Bool.or_false]
  · have ha : a.testBit i = false :=
      Nat.testBit_lt_two_pow
        (lt_of_lt_of_le h (Nat.pow_le_pow_right (by norm_num) hik))
    have hb : (b * 2 ^ k).testBit i = b.testBit (i - k) := by
      rw [← Nat.shiftLeft_eq, Nat.testBit_shiftLeft]
      simp [hik]
    have hdiv2 : (a + b * 2 ^ k) / 2 ^ k = b := by
      rw [Nat.add_mul_div_right _ _ (Nat.two_pow_pos k), Nat.div_eq_of_lt h,
        Nat.zero_add]
    have hsum : (a + b * 2 ^ k).testBit i = b.testBit (i - k) := by
      rw [Nat.testBit_to_div_mod, Nat.testBit_to_div_mod,
        show (2 : Nat) ^ i = 2 ^ k * 2 ^ (i - k) by
          rw [← pow_add]; congr 1; omega,
        ← Nat.div_div_eq_div_mul, hdiv2]
    rw [hsum, ha, hb, Bool.false_or]

/-- Multiplication by a power of two distributes over bitwise or. -/
theorem lor_mul_pow (x y s : Nat) :
    (x ||| y) * 2 ^ s = x * 2 ^ s ||| y * 2 ^ s := by
  refine Nat.eq_of_testBit_eq fun i => ?_
  rw [← Nat.shiftLeft_eq, ← Nat.shiftLeft_eq, ← Nat.shiftLeft_eq,
    Nat.testBit_lor, Nat.testBit_shiftLeft, Nat.testBit_shiftLeft,
    Nat.testBit_shiftLeft, Nat.testBit_lor]
  cases h : decide (i ≥ s) <;> simp

/-- Recombining one 7-bit varint group with the remaining groups shifted
seven bits further reproduces the value shifted by the original amount. -/
theorem varint_byte_split (v s : Nat) :
    (v % 128) <<< s ||| (v / 128) <<< (s + 7) = v <<< s := by
  rw [Nat.shiftLeft_eq, Nat.shiftLeft_eq, Nat.shiftLeft_eq]
  have h1 : v / 128 * 2 ^ (s + 7) = v / 128 * 2 ^ 7 * 2 ^ s := by
    rw [Nat.mul_assoc, ← pow_add]
    congr 2
    omega
  rw [h1, ← lor_mul_pow]
  have h2 : v % 128 ||| v / 128 * 2 ^ 7 = v % 128 + v / 128 * 2 ^ 7 :=
    lor_mul_pow_of_lt _ 7 (by norm_num [Nat.mod_lt v (by norm_num : (0:Nat) < 128)])
  rw [h2]
  congr 1
  have := Nat.mod_add_div v 128
  norm_num
  omega

/-- Decoding a tag built as `fieldNumber <<< 3 ||| wireType` returns the
field number under the scanner's `tag >> 3`. -/
theorem tag_shift_right (fn wt : Nat) (h : wt < 8) :
    (fn <<< 3 ||| wt) >>> 3 = fn := by
  have h1 : fn <<< 3 ||| wt = wt + fn * 2 ^ 3 := by
    rw [Nat.lor_comm, Nat.shiftLeft_eq]
    exact lor_mul_pow_of_lt fn 3 (by norm_num; omega)
  rw [h1, Nat.shiftRight_eq_div_pow]
  have h2 : (2 : Nat) ^ 3 = 8 := by norm_num
  rw [h2]
  omega

/-- Decoding a tag built as `fieldNumber <<< 3 ||| wireType` returns the
wire type under the scanner's `tag & 0x07`. -/
theorem tag_and_7 (fn wt : Nat) (h : wt < 8) :
    (fn <<< 3 ||| wt) &&& 7 = wt := by
  have h1 : fn <<< 3 ||| wt = wt + fn * 2 ^ 3 := by
    rw [Nat.lor_comm, Nat.shiftLeft_eq]
    exact lor_mul_pow_of_lt fn 3 (by norm_num; omega)
  rw [h1, and_7_eq_mod]
  have h2 : (2 : Nat) ^ 3 = 8 := by norm_num
  rw [h2]
  omega

/-! ### The varint decoder (`parse_varint`, source lines 113-124)

The Python loop reads `data[offset]`, ors the low seven bits into the
accumulator shifted by the running shift, advances the offset and stops
after a byte with a clear high bit or at end of buffer.  `parseVarintGo`
is that loop over the suffix `data.drop offset`, threading the running
offset through so the returned offsets coincide with the source's. -/

def parseVarintGo : List Nat → Nat → Nat → Nat → Nat × Nat
  | [], result, _, offset => (result, offset)
  | byte :: rest, result, shift, offset =>
    if byte &&& 128 = 0 then (result ||| (byte &&& 127) <<< shift, offset + 1)
    else parseVarintGo rest (result ||| (byte &&& 127) <<< shift) (shift + 7)
      (offset + 1)

/-- Embedding of `parse_varint(data, offset)`: parse a protobuf varint,
return `(value, new_offset)`. -/
def parse_varint (data : List Nat) (offset : Nat) : Nat × Nat :=
  parseVarintGo (data.drop offset) 0 0 offset

/-- Value accumulated by the varint loop over a run of bytes none of which
terminates the varint (all high bits set): the low seven bits of each byte,
shifted seven further per byte. -/
def varAccum : List Nat → Nat → Nat
  | [], _ => 0
  | b :: bs, shift => (b &&& 127) <<< shift ||| varAccum bs (shift + 7)

/-- Standard protobuf varint encoding, written with an explicit fuel
argument (`fuel ≥ v` suffices) so that it computes by `decide`. -/
def encVarGo : Nat → Nat → List Nat
  | 0, v => [v]
  | fuel + 1, v =>
    if v < 128 then [v] else (v % 128 + 128) :: encVarGo fuel (v / 128)

/-- Standard protobuf varint encoding of an unsigned value. -/
def encodeVarint (v : Nat) : List Nat :=
  encVarGo v v

theorem encVarGo_fuel : ∀ f₁ f₂ v, v ≤ f₁ → v ≤ f₂ →
    encVarGo f₁ v = encVarGo f₂ v := by
  intro f₁
  induction f₁ with
  | zero =>
    intro f₂ v h1 _
    interval_cases v
    cases f₂ <;> simp [encVarGo]
  | succ n ih =>
    intro f₂ v h1 h2
    by_cases hv : v < 128
    · cases f₂ with
      | zero =>
        have : v = 0 := by omega
        subst this
        simp [encVarGo]
      | succ m => simp [encVarGo, hv]
    · cases f₂ with
      | zero => omega
      | succ m =>
        simp only [encVarGo, if_neg hv]
        have hlt : v / 128 < v := Nat.div_lt_self (by omega) (by norm_num)
        congr 1
        exact ih m (v / 128) (by omega) (by omega)

/-- Unfolding equation of `encodeVarint` in the standard recursive form. -/
theorem encodeVarint_unfold (v : Nat) :
    encodeVarint v = if v < 128 then [v]
      else (v % 128 + 128) :: encodeVarint (v / 128) := by
  by_cases hv : v < 128
  · rw [if_pos hv]
    cases v with
    | zero => simp [encodeVarint, encVarGo]
    | succ n => simp [encodeVarint, encVarGo, hv]
  · rw [if_neg hv]
    have hvpos : 0 < v := by omega
    obtain ⟨n, rfl⟩ : ∃ n, v = n + 1 := ⟨v - 1, by omega⟩
    show encVarGo (n + 1) (n + 1) = _
    simp only [encVarGo, if_neg hv]
    congr 1
    exact encVarGo_fuel n ((n + 1) / 128) ((n + 1) / 128)
      (by have := Nat.div_lt_self (by omega : 0 < n + 1) (by norm_num : 1 < 128); omega)
      le_rfl

theorem encodeVarint_ne_nil (v : Nat) : encodeVarint v ≠ [] := by
  rw [encodeVarint_unfold]
  by_cases hv : v < 128 <;> simp [hv]

theorem encodeVarint_length_pos (v : Nat) : 0 < (encodeVarint v).length := by
  cases h : encodeVarint v with
  | nil => exact absurd h (encodeVarint_ne_nil v)
  | cons a l => simp

/-- Round trip of the varint loop over an encoded value followed by
arbitrary bytes, for every accumulator, shift and offset state. -/
theorem parseVarintGo_encode (v : Nat) : ∀ rest r s o,
    parseVarintGo (encodeVarint v ++ rest) r s o =
      (r ||| v <<< s, o + (encodeVarint v).length) := by
  induction v using Nat.strong_induction_on with
  | _ v ih =>
    intro rest r s o
    by_cases hv : v < 128
    · rw [encodeVarint_unfold, if_pos hv]
      simp only [List.cons_append, List.nil_append, parseVarintGo,
        if_pos (and_128_eq_zero hv), List.length_cons, List.length_nil]
      rw [and_127_eq_mod, Nat.mod_eq_of_lt hv]
    · rw [encodeVarint_unfold, if_neg hv]
      have hbyte1 : (v % 128 + 128) &&& 128 ≠ 0 :=
        and_128_ne_zero (by omega) (by have := Nat.mod_lt v (by norm_num : (0:Nat) < 128); omega)
      have hbyte2 : (v % 128 + 128) &&& 127 = v % 128 := by
        rw [and_127_eq_mod]
        omega
      simp only [List.cons_append, parseVarintGo, if_neg hbyte1, hbyte2,
        List.append_eq]
      rw [ih (v / 128) (Nat.div_lt_self (by omega) (by norm_num)) rest]
      rw [Nat.lor_assoc, varint_byte_split]
      simp only [List.length_cons, Prod.mk.injEq, true_and]
      omega

/-- The varint loop on a run of continuation bytes (all high bits set)
returns the accumulated partial value and the offset at the end of the
run, for every accumulator, shift and offset state. -/
theorem parseVarintGo_exhaust : ∀ bs r s o, (∀ b ∈ bs, b &&& 128 ≠ 0) →
    parseVarintGo bs r s o = (r ||| varAccum bs s, o + bs.length) := by
  intro bs
  induction bs with
  | nil => intro r s o _; simp [parseVarintGo, varAccum]
  | cons b bs ih =>
    intro r s o h
    have hb : b &&& 128 ≠ 0 := h b (List.mem_cons_self b bs)
    simp only [parseVarintGo, if_neg hb, varAccum]
    rw [ih _ _ _ (fun x hx => h x (List.mem_cons_of_mem b hx)), Nat.lor_assoc]
    simp only [List.length_cons, Prod.mk.injEq, true_and]
    all_goals omega

theorem parseVarintGo_offset_bounds : ∀ bs r s o,
    o ≤ (parseVarintGo bs r s o).2 ∧ (parseVarintGo bs r s o).2 ≤ o + bs.length := by
  intro bs
  induction bs with
  | nil => intro r s o; simp [parseVarintGo]
  | cons b bs ih =>
    intro r s o
    simp only [parseVarintGo, List.length_cons]
    by_cases hb : b &&& 128 = 0
    · simp [hb]
    · rw [if_neg hb]
      have := ih (r ||| (b &&& 127) <<< s) (s + 7) (o + 1)
      omega

theorem parseVarintGo_offset_lt (bs : List Nat) (r s o : Nat) (h : bs ≠ []) :
    o < (parseVarintGo bs r s o).2 := by
  cases bs with
  | nil => exact absurd rfl h
  | cons b bs =>
    simp only [parseVarintGo]
    by_cases hb : b &&& 128 = 0
    · simp [hb]
    · rw [if_neg hb]
      have := (parseVarintGo_offset_bounds bs (r ||| (b &&& 127) <<< s) (s + 7) (o + 1)).1
      omega

/-- If the suffix of `data` at `offset` starts with the encoding of `v`,
`parse_varint` returns `v` and the offset just past that encoding. -/
theorem parse_varint_encode_at (data : List Nat) (o v : Nat) (rest : List Nat)
    (h : data.drop o = encodeVarint v ++ rest) :
    parse_varint data o = (v, o + (encodeVarint v).length) := by
  unfold parse_varint
  rw [h, parseVarintGo_encode]
  simp [Nat.zero_or, Nat.shiftLeft_zero]

theorem parse_varint_offset_ge (data : List Nat) (o : Nat) :
    o ≤ (parse_varint data o).2 :=
  (parseVarintGo_offset_bounds _ 0 0 o).1

theorem parse_varint_offset_le (data : List Nat) (o : Nat) (h : o ≤ data.length) :
    (parse_varint data o).2 ≤ data.length := by
  have := (parseVarintGo_offset_bounds (data.drop o) 0 0 o).2
  rw [List.length_drop] at this
  unfold parse_varint
  omega

theorem parse_varint_offset_gt (data : List Nat) (o : Nat) (h : o < data.length) :
    o < (parse_varint data o).2 := by
  unfold parse_varint
  apply parseVarintGo_offset_lt
  rw [ne_eq, List.drop_eq_nil_iff]
  omega

/-! ### The wire-field scanner (`parse_proto_fields`, source lines 127-161)

Python's loop decodes a tag varint, extracts `field_number = tag >> 3` and
`wire_type = tag & 0x07`, and dispatches: wire type 0 decodes a value
varint and appends a field, wire type 2 decodes a length varint, stops if
the declared length overruns the buffer and otherwise appends the payload
slice, wire types 1 and 5 skip 8 and 4 bytes without emitting, and any
other wire type stops the scan.  The `try/except` of the source is dead
code under this embedding: none of the involved operations can raise.
The unbounded `while offset < len(data)` loop is run on a fuel counter;
every iteration advances `offset` by at least one byte, so a fuel of
`data.length` is always sufficient (`parseFieldsGo_fuel`). -/

/-- A decoded field value: wire type 0 yields an unsigned integer, wire
type 2 a byte string (Python `int` versus `bytes`). -/
inductive PValue where
  | int (v : Nat)
  | bytes (bs : List Nat)
deriving DecidableEq, Repr

/-- One `(field_number, wire_type, value)` tuple of the scanner. -/
abbrev WField := Nat × Nat × PValue

def parseFieldsGo (data : List Nat) : Nat → List WField → Nat → List WField
  | 0, fields, _ => fields
  | fuel + 1, fields, offset =>
    if offset < data.length then
      let p := parse_varint data offset
      let fieldNumber := p.1 >>> 3
      let wireType := p.1 &&& 7
      if wireType = 0 then
        let q := parse_varint data p.2
        parseFieldsGo data fuel (fields ++ [(fieldNumber, wireType, PValue.int q.1)]) q.2
      else if wireType = 2 then
        let q := parse_varint data p.2
        if q.2 + q.1 > data.length then fields
        else
          parseFieldsGo data fuel
            (fields ++ [(fieldNumber, wireType, PValue.bytes ((data.drop q.2).take q.1))])
            (q.2 + q.1)
      else if wireType = 1 then parseFieldsGo data fuel fields (p.2 + 8)
      else if wireType = 5 then parseFieldsGo data fuel fields (p.2 + 4)
      else fields
    else fields

/-- Embedding of `parse_proto_fields(data)`: parse protobuf fields from
binary data, returning the list of `(field_number, wire_type, value)`
tuples. -/
def parse_proto_fields (data : List Nat) : List WField :=
  parseFieldsGo data data.length [] 0

theorem parseFieldsGo_stop (data : List Nat) (fuel : Nat) (fields : List WField)
    (offset : Nat) (h : data.length ≤ offset) :
    parseFieldsGo data fuel fields offset = fields := by
  cases fuel with
  | zero => rfl
  | succ n => simp only [parseFieldsGo, if_neg (by omega : ¬ offset < data.length)]

theorem parseFieldsGo_fuel (data : List Nat) : ∀ f₁ f₂ fields offset,
    data.length ≤ offset + f₁ → data.length ≤ offset + f₂ →
    parseFieldsGo data f₁ fields offset = parseFieldsGo data f₂ fields offset := by
  intro f₁
  induction f₁ with
  | zero =>
    intro f₂ fields offset h1 h2
    rw [parseFieldsGo_stop data 0 fields offset (by omega),
      parseFieldsGo_stop data f₂ fields offset (by omega)]
  | succ n ih =>
    intro f₂ fields offset h1 h2
    by_cases ho : offset < data.length
    · cases f₂ with
      | zero => omega
      | succ m =>
        simp only [parseFieldsGo, if_pos ho]
        have hp1 : offset < (parse_varint data offset).2 :=
          parse_varint_offset_gt data offset ho
        have hp2 : (parse_varint data offset).2 ≤
            (parse_varint data (parse_varint data offset).2).2 :=
          parse_varint_offset_ge data (parse_varint data offset).2
        by_cases hw0 : (parse_varint data offset).1 &&& 7 = 0
        · rw [if_pos hw0, if_pos hw0]
          exact ih m _ _ (by omega) (by omega)
        · rw [if_neg hw0, if_neg hw0]
          by_cases hw2 : (parse_varint data offset).1 &&& 7 = 2
          · rw [if_pos hw2, if_pos hw2]
            by_cases hover : (parse_varint data (parse_varint data offset).2).2 +
                (parse_varint data (parse_varint data offset).2).1 > data.length
            · rw [if_pos hover, if_pos hover]
            · rw [if_neg hover, if_neg hover]
              exact ih m _ _ (by omega) (by omega)
          · rw [if_neg hw2, if_neg hw2]
            by_cases hw1 : (parse_varint data offset).1 &&& 7 = 1
            · rw [if_pos hw1, if_pos hw1]
              exact ih m _ _ (by omega) (by omega)
            · rw [if_neg hw1, if_neg hw1]
              by_cases hw5 : (parse_varint data offset).1 &&& 7 = 5
              · rw [if_pos hw5, if_pos hw5]
                exact ih m _ _ (by omega) (by omega)
              · rw [if_neg hw5, if_neg hw5]
    · rw [parseFieldsGo_stop data (n + 1) fields offset (by omega),
        parseFieldsGo_stop data f₂ fields offset (by omega)]

/-- The scanner run from `offset` with the canonical fuel. -/
def scanFrom (data : List Nat) (fields : List WField) (offset : Nat) : List WField :=
  parseFieldsGo data (data.length - offset) fields offset

theorem parse_proto_fields_eq_scanFrom (data : List Nat) :
    parse_proto_fields data = scanFrom data [] 0 := rfl

theorem scanFrom_stop (data : List Nat) (fields : List WField) (offset : Nat)
    (h : data.length ≤ offset) : scanFrom data fields offset = fields := by
  unfold scanFrom
  exact parseFieldsGo_stop data _ fields offset h

/-! ### Reference encoding of protobuf fields

To state round-trip properties the standard protobuf encoding of a field
list is defined: a tag varint `fieldNumber <<< 3 ||| wireType` followed by
the value varint (wire type 0), a length varint plus payload (wire type 2),
or the fixed 8/4 raw bytes (wire types 1/5). -/

inductive EField where
  | varint (fn : Nat) (v : Nat)
  | ld (fn : Nat) (payload : List Nat)
  | fixed64 (fn : Nat) (bs : List Nat)
  | fixed32 (fn : Nat) (bs : List Nat)

/-- Well-formedness of an abstract field: fixed-width fields carry exactly
their width in bytes. -/
def EField.wf : EField → Prop
  | .varint _ _ => True
  | .ld _ _ => True
  | .fixed64 _ bs => bs.length = 8
  | .fixed32 _ bs => bs.length = 4

def encodeField : EField → List Nat
  | .varint fn v => encodeVarint (fn <<< 3 ||| 0) ++ encodeVarint v
  | .ld fn payload =>
    encodeVarint (fn <<< 3 ||| 2) ++ encodeVarint payload.length ++ payload
  | .fixed64 fn bs => encodeVarint (fn <<< 3 ||| 1) ++ bs
  | .fixed32 fn bs => encodeVarint (fn <<< 3 ||| 5) ++ bs

def encodeMsg (fs : List EField) : List Nat :=
  (fs.map encodeField).flatten

/-- The `WField` tuples the scanner emits for one encoded field: varint and
length-delimited fields are emitted, fixed-width fields are skipped. -/
def emitted1 : EField → List WField
  | .varint fn v => [(fn, 0, PValue.int v)]
  | .ld fn payload => [(fn, 2, PValue.bytes payload)]
  | .fixed64 _ _ => []
  | .fixed32 _ _ => []

def emitted (fs : List EField) : List WField :=
  (fs.map emitted1).flatten

theorem encodeField_ne_nil (f : EField) : encodeField f ≠ [] := by
  cases f <;>
    simp [encodeField, List.append_eq_nil, encodeVarint_ne_nil]

theorem encodeField_length_pos (f : EField) : 0 < (encodeField f).length := by
  cases h : encodeField f with
  | nil => exact absurd h (encodeField_ne_nil f)
  | cons a l => simp

theorem encodeMsg_cons (f : EField) (fs : List EField) :
    encodeMsg (f :: fs) = encodeField f ++ encodeMsg fs := by
  simp [encodeMsg]

theorem encodeMsg_nil : encodeMsg [] = [] := rfl

theorem emitted_cons (f : EField) (fs : List EField) :
    emitted (f :: fs) = emitted1 f ++ emitted fs := by
  simp [emitted]

theorem emitted_nil : emitted [] = [] := rfl

/-- Scanning a buffer whose suffix at `offset` starts with one well-formed
encoded field consumes exactly that field, emits its tuples and continues. -/
theorem scanFrom_step (data : List Nat) (acc : List WField) (offset : Nat)
    (f : EField) (tail : List Nat) (hwf : f.wf)
    (h : data.drop offset = encodeField f ++ tail) :
    scanFrom data acc offset =
      scanFrom data (acc ++ emitted1 f) (offset + (encodeField f).length) := by
  have hne : data.drop offset ≠ [] := by
    rw [h]
    simp [encodeField_ne_nil f]
  have ho : offset < data.length := by
    rw [ne_eq, List.drop_eq_nil_iff] at hne
    omega
  have hlen : data.length - offset = (encodeField f).length + tail.length := by
    have := congrArg List.length h
    rw [List.length_drop, List.length_append] at this
    omega
  obtain ⟨k, hk⟩ : ∃ k, data.length - offset = k + 1 :=
    ⟨data.length - offset - 1, by have := encodeField_length_pos f; omega⟩
  unfold scanFrom
  rw [hk]
  simp only [parseFieldsGo, if_pos ho]
  cases f with
  | varint fn v =>
    have hb1 : 0 < (encodeVarint (fn <<< 3 ||| 0)).length := encodeVarint_length_pos _
    have hb2 : 0 < (encodeVarint v).length := encodeVarint_length_pos _
    have hlen2 : data.length - offset = (encodeVarint (fn <<< 3 ||| 0)).length +
        (encodeVarint v).length + tail.length := by
      simp only [encodeField, List.length_append] at hlen
      omega
    have hp : parse_varint data offset =
        (fn <<< 3 ||| 0, offset + (encodeVarint (fn <<< 3 ||| 0)).length) :=
      parse_varint_encode_at data offset (fn <<< 3 ||| 0) (encodeVarint v ++ tail)
        (by rw [h]; simp [encodeField, List.append_assoc])
    have hdrop1 : data.drop (offset + (encodeVarint (fn <<< 3 ||| 0)).length) =
        encodeVarint v ++ tail := by
      rw [← List.drop_drop, h]
      simp [encodeField, List.append_assoc, List.drop_left]
    have hq : parse_varint data (offset + (encodeVarint (fn <<< 3 ||| 0)).length) =
        (v, offset + (encodeVarint (fn <<< 3 ||| 0)).length + (encodeVarint v).length) :=
      parse_varint_encode_at data _ v tail hdrop1
    rw [hp]
    simp only [tag_and_7 fn 0 (by norm_num), tag_shift_right fn 0 (by norm_num),
      if_true, hq, emitted1, encodeField, List.length_append]
    rw [parseFieldsGo_fuel data k
        (data.length - (offset + ((encodeVarint (fn <<< 3 ||| 0)).length +
          (encodeVarint v).length))) _ _ (by omega) (by omega),
      show offset + (encodeVarint (fn <<< 3 ||| 0)).length + (encodeVarint v).length =
          offset + ((encodeVarint (fn <<< 3 ||| 0)).length + (encodeVarint v).length)
        from by omega]
  | ld fn payload =>
    have hb1 : 0 < (encodeVarint (fn <<< 3 ||| 2)).length := encodeVarint_length_pos _
    have hb2 : 0 < (encodeVarint payload.length).length := encodeVarint_length_pos _
    have hlen2 : data.length - offset = (encodeVarint (fn <<< 3 ||| 2)).length +
        (encodeVarint payload.length).length + payload.length + tail.length := by
      simp only [encodeField, List.length_append] at hlen
      omega
    have hp : parse_varint data offset =
        (fn <<< 3 ||| 2, offset + (encodeVarint (fn <<< 3 ||| 2)).length) :=
      parse_varint_encode_at data offset (fn <<< 3 ||| 2)
        (encodeVarint payload.length ++ (payload ++ tail))
        (by rw [h]; simp [encodeField, List.append_assoc])
    have hdrop1 : data.drop (offset + (encodeVarint (fn <<< 3 ||| 2)).length) =
        encodeVarint payload.length ++ (payload ++ tail) := by
      rw [← List.drop_drop, h]
      simp [encodeField, List.append_assoc, List.drop_left]
    have hq : parse_varint data (offset + (encodeVarint (fn <<< 3 ||| 2)).length) =
        (payload.length, offset + (encodeVarint (fn <<< 3 ||| 2)).length +
          (encodeVarint payload.length).length) :=
      parse_varint_encode_at data _ payload.length (payload ++ tail) hdrop1
    have hdrop2 : data.drop (offset + (encodeVarint (fn <<< 3 ||| 2)).length +
        (encodeVarint payload.length).length) = payload ++ tail := by
      rw [← List.drop_drop, hdrop1, List.drop_left]
    have hnover : ¬ (offset + (encodeVarint (fn <<< 3 ||| 2)).length +
        (encodeVarint payload.length).length + payload.length > data.length) := by
      omega
    rw [hp]
    simp only [tag_and_7 fn 2 (by norm_num), tag_shift_right fn 2 (by norm_num),
      if_true, hq]
    rw [if_neg (by decide : ¬ (2 : Nat) = 0), if_neg hnover, hdrop2,
      List.take_left]
    simp only [emitted1, encodeField, List.length_append]
    rw [parseFieldsGo_fuel data k
        (data.length - (offset + ((encodeVarint (fn <<< 3 ||| 2)).length +
          (encodeVarint payload.length).length + payload.length))) _ _
        (by omega) (by omega),
      show offset + (encodeVarint (fn <<< 3 ||| 2)).length +
            (encodeVarint payload.length).length + payload.length =
          offset + ((encodeVarint (fn <<< 3 ||| 2)).length +
            (encodeVarint payload.length).length + payload.length)
        from by omega]
  | fixed64 fn bs =>
    have hb1 : 0 < (encodeVarint (fn <<< 3 ||| 1)).length := encodeVarint_length_pos _
    have hbs : bs.length = 8 := hwf
    have hlen2 : data.length - offset = (encodeVarint (fn <<< 3 ||| 1)).length +
        8 + tail.length := by
      simp only [encodeField, List.length_append, hbs] at hlen
      omega
    have hp : parse_varint data offset =
        (fn <<< 3 ||| 1, offset + (encodeVarint (fn <<< 3 ||| 1)).length) :=
      parse_varint_encode_at data offset (fn <<< 3 ||| 1) (bs ++ tail)
        (by rw [h]; simp [encodeField, List.append_assoc])
    rw [hp]
    simp only [tag_and_7 fn 1 (by norm_num), tag_shift_right fn 1 (by norm_num),
      if_true]
    rw [if_neg (by decide : ¬ (1 : Nat) = 0), if_neg (by decide : ¬ (1 : Nat) = 2)]
    simp only [emitted1, encodeField, List.length_append, List.append_nil, hbs]
    rw [parseFieldsGo_fuel data k
        (data.length - (offset + ((encodeVarint (fn <<< 3 ||| 1)).length + 8))) _ _
        (by omega) (by omega),
      show offset + (encodeVarint (fn <<< 3 ||| 1)).length + 8 =
          offset + ((encodeVarint (fn <<< 3 ||| 1)).length + 8) from by omega]
  | fixed32 fn bs =>
    have hb1 : 0 < (encodeVarint (fn <<< 3 ||| 5)).length := encodeVarint_length_pos _
    have hbs : bs.length = 4 := hwf
    have hlen2 : data.length - offset = (encodeVarint (fn <<< 3 ||| 5)).length +
        4 + tail.length := by
      simp only [encodeField, List.length_append, hbs] at hlen
      omega
    have hp : parse_varint data offset =
        (fn <<< 3 ||| 5, offset + (encodeVarint (fn <<< 3 ||| 5)).length) :=
      parse_varint_encode_at data offset (fn <<< 3 ||| 5) (bs ++ tail)
        (by rw [h]; simp [encodeField, List.append_assoc])
    rw [hp]
    simp only [tag_and_7 fn 5 (by norm_num), tag_shift_right fn 5 (by norm_num),
      if_true]
    rw [if_neg (by decide : ¬ (5 : Nat) = 0), if_neg (by decide : ¬ (5 : Nat) = 2),
      if_neg (by decide : ¬ (5 : Nat) = 1)]
    simp only [emitted1, encodeField, List.length_append, List.append_nil, hbs]
    rw [parseFieldsGo_fuel data k
        (data.length - (offset + ((encodeVarint (fn <<< 3 ||| 5)).length + 4))) _ _
        (by omega) (by omega),
      show offset + (encodeVarint (fn <<< 3 ||| 5)).length + 4 =
          offset + ((encodeVarint (fn <<< 3 ||| 5)).length + 4) from by omega]

/-- Scanning across a whole encoded message: each well-formed field is
consumed in turn and its tuples appended, in encoding order. -/
theorem scanFrom_msg (data : List Nat) : ∀ (fs : List EField) (acc : List WField)
    (offset : Nat) (tail : List Nat), (∀ f ∈ fs, f.wf) →
    data.drop offset = encodeMsg fs ++ tail →
    scanFrom data acc offset =
      scanFrom data (acc ++ emitted fs) (offset + (encodeMsg fs).length) := by
  intro fs
  induction fs with
  | nil =>
    intro acc offset tail _ h
    simp [encodeMsg_nil, emitted_nil]
  | cons f fs ih =>
    intro acc offset tail hwf h
    rw [encodeMsg_cons] at h
    have h1 : data.drop offset = encodeField f ++ (encodeMsg fs ++ tail) := by
      rw [h, List.append_assoc]
    rw [scanFrom_step data acc offset f (encodeMsg fs ++ tail)
      (hwf f (List.mem_cons_self f fs)) h1]
    have h2 : data.drop (offset + (encodeField f).length) = encodeMsg fs ++ tail := by
      rw [← List.drop_drop, h1, List.drop_left]
    rw [ih (acc ++ emitted1 f) _ tail
      (fun g hg => hwf g (List.mem_cons_of_mem f hg)) h2]
    simp only [encodeMsg_cons, emitted_cons, List.length_append, List.append_assoc]
    congr 1
    omega

/-- Scan completeness over the reference encoding: a validly encoded buffer
yields exactly the emitted tuples of its fields, in encoding order. -/
theorem parse_proto_fields_encodeMsg (fs : List EField) (h : ∀ f ∈ fs, f.wf) :
    parse_proto_fields (encodeMsg fs) = emitted fs := by
  rw [parse_proto_fields_eq_scanFrom,
    scanFrom_msg (encodeMsg fs) fs [] 0 [] h (by simp),
    scanFrom_stop _ _ _ (by simp)]
  simp

/-- A length-delimited field whose declared length exceeds the remaining
bytes stops the scan, returning the fields collected so far. -/
theorem scanFrom_truncated (data : List Nat) (acc : List WField)
    (offset fn L : Nat) (t : List Nat) (ht : t.length < L)
    (h : data.drop offset = encodeVarint (fn <<< 3 ||| 2) ++ (encodeVarint L ++ t)) :
    scanFrom data acc offset = acc := by
  have hne : data.drop offset ≠ [] := by
    rw [h]
    simp [encodeVarint_ne_nil]
  have ho : offset < data.length := by
    rw [ne_eq, List.drop_eq_nil_iff] at hne
    omega
  have hlen : data.length - offset = (encodeVarint (fn <<< 3 ||| 2)).length +
      ((encodeVarint L).length + t.length) := by
    have := congrArg List.length h
    rw [List.length_drop, List.length_append, List.length_append] at this
    omega
  obtain ⟨k, hk⟩ : ∃ k, data.length - offset = k + 1 :=
    ⟨data.length - offset - 1,
      by have := encodeVarint_length_pos (fn <<< 3 ||| 2); omega⟩
  unfold scanFrom
  rw [hk]
  simp only [parseFieldsGo, if_pos ho]
  have hp := parse_varint_encode_at data offset (fn <<< 3 ||| 2)
    (encodeVarint L ++ t) h
  have hdrop1 : data.drop (offset + (encodeVarint (fn <<< 3 ||| 2)).length) =
      encodeVarint L ++ t := by
    rw [← List.drop_drop, h, List.drop_left]
  have hq := parse_varint_encode_at data _ L t hdrop1
  rw [hp]
  simp only [tag_and_7 fn 2 (by norm_num), tag_shift_right fn 2 (by norm_num),
    if_true, hq]
  rw [if_neg (by decide : ¬ (2 : Nat) = 0),
    if_pos (show offset + (encodeVarint (fn <<< 3 ||| 2)).length +
      (encodeVarint L).length + L > data.length by omega)]

/-- A trailing wire-type-0 field whose value varint never terminates (or is
absent) is still appended, carrying the partially accumulated value. -/
theorem scanFrom_trailing_varint (data : List Nat) (acc : List WField)
    (offset n : Nat) (cont : List Nat) (hc : ∀ b ∈ cont, b &&& 128 ≠ 0)
    (h : data.drop offset = encodeVarint (n <<< 3 ||| 0) ++ cont) :
    scanFrom data acc offset = acc ++ [(n, 0, PValue.int (varAccum cont 0))] := by
  have hne : data.drop offset ≠ [] := by
    rw [h]
    simp [encodeVarint_ne_nil]
  have ho : offset < data.length := by
    rw [ne_eq, List.drop_eq_nil_iff] at hne
    omega
  have hlen : data.length - offset = (encodeVarint (n <<< 3 ||| 0)).length +
      cont.length := by
    have := congrArg List.length h
    rw [List.length_drop, List.length_append] at this
    omega
  obtain ⟨k, hk⟩ : ∃ k, data.length - offset = k + 1 :=
    ⟨data.length - offset - 1,
      by have := encodeVarint_length_pos (n <<< 3 ||| 0); omega⟩
  unfold scanFrom
  rw [hk]
  simp only [parseFieldsGo, if_pos ho]
  have hp := parse_varint_encode_at data offset (n <<< 3 ||| 0) cont h
  have hdrop1 : data.drop (offset + (encodeVarint (n <<< 3 ||| 0)).length) =
      cont := by
    rw [← List.drop_drop, h, List.drop_left]
  have hq : parse_varint data (offset + (encodeVarint (n <<< 3 ||| 0)).length) =
      (varAccum cont 0, data.length) := by
    unfold parse_varint
    rw [hdrop1, parseVarintGo_exhaust cont 0 0
      (offset + (encodeVarint (n <<< 3 ||| 0)).length) hc]
    simp only [Nat.zero_or, Prod.mk.injEq, true_and]
    omega
  rw [hp]
  simp only [tag_and_7 n 0 (by norm_num), tag_shift_right n 0 (by norm_num),
    if_true, hq]
  exact parseFieldsGo_stop data k _ data.length le_rfl

/-- Every tuple the scanner loop emits has wire type 0 or 2, whatever the
input bytes. -/
theorem parseFieldsGo_wiretype (data : List Nat) : ∀ fuel (acc : List WField)
    (offset : Nat), (∀ x ∈ acc, x.2.1 = 0 ∨ x.2.1 = 2) →
    ∀ x ∈ parseFieldsGo data fuel acc offset, x.2.1 = 0 ∨ x.2.1 = 2 := by
  intro fuel
  induction fuel with
  | zero => intro acc offset hacc x hx; exact hacc x hx
  | succ m ih =>
    intro acc offset hacc x hx
    by_cases ho : offset < data.length
    · simp only [parseFieldsGo, if_pos ho] at hx
      by_cases hw0 : (parse_varint data offset).1 &&& 7 = 0
      · rw [if_pos hw0] at hx
        refine ih _ _ ?_ x hx
        intro y hy
        rcases List.mem_append.mp hy with hy | hy
        · exact hacc y hy
        · rcases List.mem_singleton.mp hy with rfl
          exact Or.inl hw0
      · rw [if_neg hw0] at hx
        by_cases hw2 : (parse_varint data offset).1 &&& 7 = 2
        · rw [if_pos hw2] at hx
          by_cases hover : (parse_varint data (parse_varint data offset).2).2 +
              (parse_varint data (parse_varint data offset).2).1 > data.length
          · rw [if_pos hover] at hx
            exact hacc x hx
          · rw [if_neg hover] at hx
            refine ih _ _ ?_ x hx
            intro y hy
            rcases List.mem_append.mp hy with hy | hy
            · exact hacc y hy
            · rcases List.mem_singleton.mp hy with rfl
              exact Or.inr hw2
        · rw [if_neg hw2] at hx
          by_cases hw1 : (parse_varint data offset).1 &&& 7 = 1
          · rw [if_pos hw1] at hx
            exact ih _ _ hacc x hx
          · rw [if_neg hw1] at hx
            by_cases hw5 : (parse_varint data offset).1 &&& 7 = 5
            · rw [if_pos hw5] at hx
              exact ih _ _ hacc x hx
            · rw [if_neg hw5] at hx
              exact hacc x hx
    · rw [parseFieldsGo_stop data _ acc offset (by omega)] at hx
      exact hacc x hx

theorem parse_proto_fields_wiretype (data : List Nat) :
    ∀ x ∈ parse_proto_fields data, x.2.1 = 0 ∨ x.2.1 = 2 :=
  fun x hx => parseFieldsGo_wiretype data data.length [] 0 (by simp) x hx

/-! ### The per-chunk gRPC frame loop (`modify_stream`, source lines 709-739,
and the identical loop of `CursorAnalyzer.analyze_grpc_stream`, lines 934-956)

The Python callback scans ONE chunk: `while offset + 5 <= len(data)` reads a
flag byte and a 4-byte big-endian length, breaks when fewer than `5+length`
bytes remain, and otherwise extracts `data[offset+5 : offset+5+length]`.
Bytes after the last complete frame of the chunk are not retained anywhere:
the next call starts at offset 0 of the next chunk.  `scanFrames` returns
the `(flags, frame_data)` pairs extracted from one chunk, in order; the
source then skips trailer frames (`flags & 0x80`) when decoding events. -/

def scanFramesGo (data : List Nat) : Nat → List (Nat × List Nat) → Nat →
    List (Nat × List Nat)
  | 0, acc, _ => acc
  | fuel + 1, acc, offset =>
    if offset + 5 ≤ data.length then
      let flags := data.getD offset 0
      let length := data.getD (offset + 1) 0 * 16777216 +
        data.getD (offset + 2) 0 * 65536 +
        data.getD (offset + 3) 0 * 256 + data.getD (offset + 4) 0
      if offset + 5 + length > data.length then acc
      else
        scanFramesGo data fuel
          (acc ++ [(flags, (data.drop (offset + 5)).take length)])
          (offset + 5 + length)
    else acc

/-- Embedding of the frame-extraction loop run on one chunk: the ordered
`(flags, payload)` pairs of the complete frames at the start of the chunk. -/
def scanFrames (data : List Nat) : List (Nat × List Nat) :=
  scanFramesGo data data.length [] 0

/-- The 5-byte header (flag byte, big-endian 32-bit length) followed by the
payload: one encoded gRPC-Web frame. -/
def encodeFrame (flags : Nat) (payload : List Nat) : List Nat :=
  flags :: (payload.length / 16777216 % 256) :: (payload.length / 65536 % 256) ::
    (payload.length / 256 % 256) :: (payload.length % 256) :: payload

def encodeFrames (frames : List (Nat × List Nat)) : List Nat :=
  (frames.map (fun fr => encodeFrame fr.1 fr.2)).flatten

theorem encodeFrame_length (flags : Nat) (payload : List Nat) :
    (encodeFrame flags payload).length = 5 + payload.length := by
  simp [encodeFrame]
  omega

theorem encodeFrames_cons (fr : Nat × List Nat) (frames : List (Nat × List Nat)) :
    encodeFrames (fr :: frames) = encodeFrame fr.1 fr.2 ++ encodeFrames frames := by
  simp [encodeFrames]

theorem scanFramesGo_stop (data : List Nat) (fuel : Nat)
    (acc : List (Nat × List Nat)) (offset : Nat) (h : data.length < offset + 5) :
    scanFramesGo data fuel acc offset = acc := by
  cases fuel with
  | zero => rfl
  | succ n => simp only [scanFramesGo, if_neg (by omega : ¬ offset + 5 ≤ data.length)]

theorem scanFramesGo_fuel (data : List Nat) : ∀ f₁ f₂ acc offset,
    data.length ≤ offset + f₁ → data.length ≤ offset + f₂ →
    scanFramesGo data f₁ acc offset = scanFramesGo data f₂ acc offset := by
  intro f₁
  induction f₁ with
  | zero =>
    intro f₂ acc offset h1 h2
    rw [scanFramesGo_stop data 0 acc offset (by omega),
      scanFramesGo_stop data f₂ acc offset (by omega)]
  | succ n ih =>
    intro f₂ acc offset h1 h2
    by_cases ho : offset + 5 ≤ data.length
    · cases f₂ with
      | zero => omega
      | succ m =>
        simp only [scanFramesGo, if_pos ho]
        by_cases hover : offset + 5 + (data.getD (offset + 1) 0 * 16777216 +
            data.getD (offset + 2) 0 * 65536 + data.getD (offset + 3) 0 * 256 +
            data.getD (offset + 4) 0) > data.length
        · rw [if_pos hover, if_pos hover]
        · rw [if_neg hover, if_neg hover]
          exact ih m _ _ (by omega) (by omega)
    · rw [scanFramesGo_stop data (n + 1) acc offset (by omega),
        scanFramesGo_stop data f₂ acc offset (by omega)]

/-- The frame loop only ever appends to its accumulator. -/
theorem scanFramesGo_acc (data : List Nat) : ∀ fuel acc offset,
    scanFramesGo data fuel acc offset = acc ++ scanFramesGo data fuel [] offset := by
  intro fuel
  induction fuel with
  | zero => intro acc offset; simp [scanFramesGo]
  | succ n ih =>
    intro acc offset
    by_cases ho : offset + 5 ≤ data.length
    · simp only [scanFramesGo, if_pos ho]
      by_cases hover : offset + 5 + (data.getD (offset + 1) 0 * 16777216 +
          data.getD (offset + 2) 0 * 65536 + data.getD (offset + 3) 0 * 256 +
          data.getD (offset + 4) 0) > data.length
      · rw [if_pos hover, if_pos hover]
        simp
      · rw [if_neg hover, if_neg hover]
        rw [ih (acc ++ [_]) _, ih ([] ++ [_]) _]
        simp
    · simp only [scanFramesGo, if_neg ho]
      simp

/-- The frame loop depends only on the suffix of the buffer at the running
offset: scanning `dataA` from `oA` and `dataB` from `oB` agree whenever the
two suffixes agree. -/
theorem scanFramesGo_shift (dataA dataB : List Nat) : ∀ fuel acc oA oB,
    oA ≤ dataA.length → oB ≤ dataB.length → dataA.drop oA = dataB.drop oB →
    scanFramesGo dataA fuel acc oA = scanFramesGo dataB fuel acc oB := by
  intro fuel
  induction fuel with
  | zero => intro acc oA oB _ _ _; rfl
  | succ n ih =>
    intro acc oA oB hA hB hdrop
    have hlen : dataA.length - oA = dataB.length - oB := by
      have := congrArg List.length hdrop
      rw [List.length_drop, List.length_drop] at this
      omega
    have hget : ∀ i, dataA.getD (oA + i) 0 = dataB.getD (oB + i) 0 := by
      intro i
      rw [List.getD_eq_getElem?_getD, List.getD_eq_getElem?_getD,
        ← List.getElem?_drop, ← List.getElem?_drop, hdrop]
    by_cases ho : oA + 5 ≤ dataA.length
    · have hoB : oB + 5 ≤ dataB.length := by omega
      simp only [scanFramesGo, if_pos ho, if_pos hoB]
      rw [show dataA.getD oA 0 = dataB.getD oB 0 by
          have := hget 0; simpa using this,
        hget 1, hget 2, hget 3, hget 4]
      by_cases hover : oB + 5 + (dataB.getD (oB + 1) 0 * 16777216 +
          dataB.getD (oB + 2) 0 * 65536 + dataB.getD (oB + 3) 0 * 256 +
          dataB.getD (oB + 4) 0) > dataB.length
      · rw [if_pos (by omega), if_pos hover]
      · rw [if_neg (by omega), if_neg hover]
        have hdrop5 : dataA.drop (oA + 5) = dataB.drop (oB + 5) := by
          rw [← List.drop_drop, ← List.drop_drop, hdrop]
        rw [show (dataA.drop (oA + 5)).take _ = (dataB.drop (oB + 5)).take _ by
          rw [hdrop5]]
        apply ih _ _ _ (by omega) (by omega)
        rw [← List.drop_drop (dataB.getD (oB + 1) 0 * 16777216 +
            dataB.getD (oB + 2) 0 * 65536 + dataB.getD (oB + 3) 0 * 256 +
            dataB.getD (oB + 4) 0) (oA + 5) dataA,
          ← List.drop_drop (dataB.getD (oB + 1) 0 * 16777216 +
            dataB.getD (oB + 2) 0 * 65536 + dataB.getD (oB + 3) 0 * 256 +
            dataB.getD (oB + 4) 0) (oB + 5) dataB,
          hdrop5]
    · have hoB : ¬ oB + 5 ≤ dataB.length := by omega
      simp only [scanFramesGo, if_neg ho, if_neg hoB]

/-- The frame loop run from `offset` with the canonical fuel. -/
def framesFrom (data : List Nat) (acc : List (Nat × List Nat)) (offset : Nat) :
    List (Nat × List Nat) :=
  scanFramesGo data (data.length - offset) acc offset

theorem scanFrames_eq_framesFrom (data : List Nat) :
    scanFrames data = framesFrom data [] 0 := rfl

/-- Scanning a buffer whose suffix at `offset` starts with one complete
encoded frame extracts exactly that frame and continues after it. -/
theorem framesFrom_step (data : List Nat) (acc : List (Nat × List Nat))
    (offset flags : Nat) (payload tail : List Nat)
    (h32 : payload.length < 4294967296)
    (h : data.drop offset = encodeFrame flags payload ++ tail) :
    framesFrom data acc offset =
      framesFrom data (acc ++ [(flags, payload)]) (offset + 5 + payload.length) := by
  have hlen : data.length - offset = 5 + payload.length + tail.length := by
    have := congrArg List.length h
    rw [List.length_drop, List.length_append, encodeFrame_length] at this
    omega
  have ho : offset + 5 ≤ data.length := by
    have : data.drop offset ≠ [] := by
      rw [h]
      simp [encodeFrame]
    rw [ne_eq, List.drop_eq_nil_iff] at this
    omega
  have hget : ∀ i, data.getD (offset + i) 0 =
      (encodeFrame flags payload ++ tail).getD i 0 := by
    intro i
    rw [List.getD_eq_getElem?_getD, List.getD_eq_getElem?_getD,
      ← List.getElem?_drop, h]
  have hg0 : data.getD offset 0 = flags := by
    have := hget 0
    simpa [encodeFrame] using this
  have hg1 : data.getD (offset + 1) 0 = payload.length / 16777216 % 256 := by
    have := hget 1
    simpa [encodeFrame] using this
  have hg2 : data.getD (offset + 2) 0 = payload.length / 65536 % 256 := by
    have := hget 2
    simpa [encodeFrame] using this
  have hg3 : data.getD (offset + 3) 0 = payload.length / 256 % 256 := by
    have := hget 3
    simpa [encodeFrame] using this
  have hg4 : data.getD (offset + 4) 0 = payload.length % 256 := by
    have := hget 4
    simpa [encodeFrame] using this
  have hbe : payload.length / 16777216 % 256 * 16777216 +
      payload.length / 65536 % 256 * 65536 +
      payload.length / 256 % 256 * 256 + payload.length % 256 =
      payload.length := by
    omega
  obtain ⟨k, hk⟩ : ∃ k, data.length - offset = k + 1 :=
    ⟨data.length - offset - 1, by omega⟩
  unfold framesFrom
  rw [hk]
  simp only [scanFramesGo, if_pos ho, hg0, hg1, hg2, hg3, hg4, hbe]
  rw [if_neg (by omega : ¬ offset + 5 + payload.length > data.length)]
  have hdrop5 : data.drop (offset + 5) = payload ++ tail := by
    rw [← List.drop_drop, h]
    simp [encodeFrame]
  rw [hdrop5, List.take_left]
  rw [scanFramesGo_fuel data k (data.length - (offset + 5 + payload.length)) _ _
    (by omega) (by omega)]

/-- Scanning across a run of complete encoded frames extracts exactly those
frames, in order, and continues after them. -/
theorem framesFrom_msg (data : List Nat) : ∀ (frames : List (Nat × List Nat))
    (acc : List (Nat × List Nat)) (offset : Nat) (tail : List Nat),
    (∀ fr ∈ frames, fr.2.length < 4294967296) →
    data.drop offset = encodeFrames frames ++ tail →
    framesFrom data acc offset =
      framesFrom data (acc ++ frames) (offset + (encodeFrames frames).length) := by
  intro frames
  induction frames with
  | nil =>
    intro acc offset tail _ h
    simp [encodeFrames]
  | cons fr frames ih =>
    intro acc offset tail hwf h
    rw [encodeFrames_cons] at h
    have h1 : data.drop offset = encodeFrame fr.1 fr.2 ++ (encodeFrames frames ++ tail) := by
      rw [h, List.append_assoc]
    rw [framesFrom_step data acc offset fr.1 fr.2 (encodeFrames frames ++ tail)
      (hwf fr (List.mem_cons_self fr frames)) h1]
    have h2 : data.drop (offset + 5 + fr.2.length) = encodeFrames frames ++ tail := by
      rw [show offset + 5 + fr.2.length = offset + (encodeFrame fr.1 fr.2).length by
          rw [encodeFrame_length]; omega,
        ← List.drop_drop, h1, List.drop_left]
    rw [ih (acc ++ [(fr.1, fr.2)]) _ tail
      (fun g hg => hwf g (List.mem_cons_of_mem fr hg)) h2]
    simp only [encodeFrames_cons, List.length_append, encodeFrame_length,
      List.append_assoc, List.singleton_append, Prod.mk.eta]
    congr 1
    omega

/-! ### Strict UTF-8 decoding

Python's `bytes.decode('utf-8')` either returns a string or raises; the
embedding returns `Option String`.  The decoder is the strict (RFC 3629)
one Python uses: continuation bytes are `0x80-0xBF`, lead bytes `0xC0/0xC1`
and `0xF5-0xFF` are invalid, overlong encodings, surrogate code points and
values above `0x10FFFF` are rejected, and truncated sequences fail. -/

def utf8DecodeCps : List Nat → Option (List Nat)
  | [] => some []
  | b0 :: bs =>
    if b0 < 128 then (utf8DecodeCps bs).map (b0 :: ·)
    else if b0 < 194 then none
    else if b0 < 224 then
      match bs with
      | b1 :: bs2 =>
        if 128 ≤ b1 ∧ b1 < 192 then
          (utf8DecodeCps bs2).map (((b0 - 192) * 64 + (b1 - 128)) :: ·)
        else none
      | [] => none
    else if b0 < 240 then
      match bs with
      | b1 :: b2 :: bs2 =>
        if (128 ≤ b1 ∧ b1 < 192) ∧ (128 ≤ b2 ∧ b2 < 192) then
          if 2048 ≤ (b0 - 224) * 4096 + (b1 - 128) * 64 + (b2 - 128) ∧
              ¬ (55296 ≤ (b0 - 224) * 4096 + (b1 - 128) * 64 + (b2 - 128) ∧
                (b0 - 224) * 4096 + (b1 - 128) * 64 + (b2 - 128) < 57344) then
            (utf8DecodeCps bs2).map
              (((b0 - 224) * 4096 + (b1 - 128) * 64 + (b2 - 128)) :: ·)
          else none
        else none
      | _ => none
    else if b0 < 245 then
      match bs with
      | b1 :: b2 :: b3 :: bs2 =>
        if (128 ≤ b1 ∧ b1 < 192) ∧ (128 ≤ b2 ∧ b2 < 192) ∧
            (128 ≤ b3 ∧ b3 < 192) then
          if 65536 ≤ (b0 - 240) * 262144 + (b1 - 128) * 4096 +
                (b2 - 128) * 64 + (b3 - 128) ∧
              (b0 - 240) * 262144 + (b1 - 128) * 4096 +
                (b2 - 128) * 64 + (b3 - 128) < 1114112 then
            (utf8DecodeCps bs2).map
              (((b0 - 240) * 262144 + (b1 - 128) * 4096 +
                (b2 - 128) * 64 + (b3 - 128)) :: ·)
          else none
        else none
      | _ => none
    else none

/-- Embedding of `val.decode('utf-8')`: `some` on success, `none` where
Python raises `UnicodeDecodeError`. -/
def decodeUtf8? (bs : List Nat) : Option String :=
  (utf8DecodeCps bs).map (fun cps => String.mk (cps.map Char.ofNat))

/-! ### The semantic field tables (source lines 284-342)

`TOOL_FIELD_MAP` and `TOOL_ARG_SCHEMA` are module-level constant dicts;
`dict.get` is embedded as an `Option`-returning function.  The two-level
`TOOL_ARG_SCHEMA.get(tool_name, {})` followed by `.get(afn, default)` is
one curried function. -/

def TOOL_FIELD_MAP : Nat → Option String
  | 1 => some "bash"
  | 3 => some "delete"
  | 4 => some "glob"
  | 5 => some "grep"
  | 8 => some "read"
  | 9 => some "todowrite"
  | 10 => some "todoread"
  | 12 => some "edit"
  | 13 => some "list"
  | 14 => some "read_lints"
  | 15 => some "mcp"
  | 16 => some "semantic_search"
  | 17 => some "create_plan"
  | 18 => some "web_search"
  | 19 => some "task"
  | 20 => some "list_mcp_resources"
  | 21 => some "read_mcp_resource"
  | 22 => some "apply_diff"
  | 23 => some "ask_question"
  | 24 => some "webfetch"
  | 25 => some "switch_mode"
  | 26 => some "exa_search"
  | 27 => some "exa_fetch"
  | 28 => some "generate_image"
  | 29 => some "record_screen"
  | 30 => some "computer_use"
  | _ => none

def TOOL_ARG_SCHEMA : String → Nat → Option String
  | "bash", 1 => some "command"
  | "bash", 2 => some "description"
  | "bash", 3 => some "working_directory"
  | "delete", 1 => some "filePath"
  | "glob", 1 => some "pattern"
  | "glob", 2 => some "path"
  | "grep", 1 => some "pattern"
  | "grep", 2 => some "path"
  | "grep", 3 => some "include"
  | "read", 1 => some "filePath"
  | "read", 2 => some "offset"
  | "read", 3 => some "limit"
  | "todowrite", 1 => some "todos"
  | "edit", 1 => some "filePath"
  | "edit", 2 => some "oldString"
  | "edit", 3 => some "newString"
  | "edit", 4 => some "replaceAll"
  | "list", 1 => some "path"
  | "list", 2 => some "ignore"
  | "mcp", 1 => some "provider_identifier"
  | "mcp", 2 => some "tool_name"
  | "mcp", 3 => some "tool_call_id"
  | "mcp", 4 => some "args"
  | "semantic_search", 1 => some "query"
  | "semantic_search", 2 => some "path"
  | "create_plan", 1 => some "plan"
  | "web_search", 1 => some "query"
  | "task", 1 => some "description"
  | "task", 2 => some "prompt"
  | "task", 3 => some "subagent_type"
  | "list_mcp_resources", 1 => some "provider_identifier"
  | "read_mcp_resource", 1 => some "provider_identifier"
  | "read_mcp_resource", 2 => some "uri"
  | "apply_diff", 1 => some "filePath"
  | "apply_diff", 2 => some "diff"
  | "ask_question", 1 => some "question"
  | "webfetch", 1 => some "url"
  | "webfetch", 2 => some "format"
  | "switch_mode", 1 => some "mode"
  | "exa_search", 1 => some "query"
  | "exa_fetch", 1 => some "url"
  | "generate_image", 1 => some "prompt"
  | "record_screen", 1 => some "duration"
  | "computer_use", 1 => some "action"
  | "computer_use", 2 => some "text"
  | "computer_use", 3 => some "coordinate"
  | _, _ => none

/-! ### The tool-call decoder (`parse_tool_call`, source lines 345-382) -/

/-- A decoded argument value: Python stores strings, raw unsigned integers,
or (for `replaceAll`) booleans in `info["args"]`. -/
inductive ArgValue where
  | str (s : String)
  | int (v : Nat)
  | bool (b : Bool)
deriving DecidableEq

/-- Result of `parse_tool_call`: the dict
`{"tool_name": ..., "args": {...}}`, with the args dict as an association
list in insertion order. -/
structure ToolCallInfo where
  tool_name : String
  args : List (String × ArgValue)
deriving DecidableEq

/-- Python dict assignment `d[k] = v`: overwrite in place when the key
exists (keeping its position), append otherwise. -/
def dictInsert (d : List (String × ArgValue)) (k : String) (v : ArgValue) :
    List (String × ArgValue) :=
  if d.any (fun p => p.1 == k) then
    d.map (fun p => if p.1 = k then (k, v) else p)
  else d ++ [(k, v)]

/-- The source's inner `for nfn, nwt, nval in nested` loop with its `break`:
the first nested field numbered 1 with wire type 2 (a bytes value), if any. -/
def firstNested1 : List WField → Option (List Nat)
  | [] => none
  | (nfn, nwt, PValue.bytes nval) :: rest =>
    if nfn = 1 ∧ nwt = 2 then some nval else firstNested1 rest
  | _ :: rest => firstNested1 rest

/-- One iteration of the argument loop of `parse_tool_call` (lines
358-378): resolve the argument name through the schema with the
`field_{afn}` fallback, then coerce the value; a failed UTF-8 decode
leaves the args dict unchanged (Python's `except: pass`). -/
def toolArgStep (arg_schema : Nat → Option String)
    (args : List (String × ArgValue)) (af : WField) :
    List (String × ArgValue) :=
  let arg_name := (arg_schema af.1).getD ("field_" ++ toString af.1)
  if af.2.1 = 2 then
    match af.2.2 with
    | PValue.bytes aval =>
      match firstNested1 (parse_proto_fields aval) with
      | some nval =>
        match decodeUtf8? nval with
        | some s => dictInsert args arg_name (ArgValue.str s)
        | none => args
      | none =>
        match decodeUtf8? aval with
        | some s => dictInsert args arg_name (ArgValue.str s)
        | none => args
    | _ => args
  else if af.2.1 = 0 then
    match af.2.2 with
    | PValue.int v =>
      if arg_name = "replaceAll" then
        dictInsert args arg_name (ArgValue.bool (v == 1))
      else dictInsert args arg_name (ArgValue.int v)
    | _ => args
  else args

/-- The outer field loop of `parse_tool_call` with its `break`: the first
field whose number is in `TOOL_FIELD_MAP` and whose wire type is 2 selects
the tool and its nested bytes are scanned for arguments; everything after
the `break` is ignored. -/
def toolCallLoop : List WField → ToolCallInfo
  | [] => { tool_name := "unknown", args := [] }
  | (fn, wt, val) :: rest =>
    match TOOL_FIELD_MAP fn with
    | some tool_name =>
      if wt = 2 then
        match val with
        | PValue.bytes bs =>
          { tool_name := tool_name,
            args := (parse_proto_fields bs).foldl
              (toolArgStep (TOOL_ARG_SCHEMA tool_name)) [] }
        | _ => toolCallLoop rest
      else toolCallLoop rest
    | none => toolCallLoop rest

/-- Embedding of `parse_tool_call(data)`: parse a ToolCall message; the
tool type is determined by the field number. -/
def parse_tool_call (data : List Nat) : ToolCallInfo :=
  toolCallLoop (parse_proto_fields data)

/-! ### The per-update decoders (`parse_tool_call_info` lines 385-414,
`parse_partial_tool_call` lines 417-451) -/

/-- Result dict of `parse_tool_call_info`: the keys are set only when the
corresponding field decodes (Python dict key presence as `Option`). -/
structure ToolCallEventInfo where
  call_id : Option String := none
  tool_name : Option String := none
  args : Option (List (String × ArgValue)) := none
  model_call_id : Option String := none
deriving DecidableEq

/-- Embedding of `parse_tool_call_info(data)`: field 1 is the call id,
field 2 a nested ToolCall (its tool name and args are copied), field 3 the
model call id; a failed UTF-8 decode leaves the key as it was. -/
def parse_tool_call_info (data : List Nat) : ToolCallEventInfo :=
  (parse_proto_fields data).foldl
    (fun info f =>
      match f with
      | (1, 2, PValue.bytes v) =>
        match decodeUtf8? v with
        | some s => { info with call_id := some s }
        | none => info
      | (2, 2, PValue.bytes v) =>
        let t := parse_tool_call v
        { info with tool_name := some t.tool_name, args := some t.args }
      | (3, 2, PValue.bytes v) =>
        match decodeUtf8? v with
        | some s => { info with model_call_id := some s }
        | none => info
      | _ => info)
    {}

/-- Result dict of `parse_partial_tool_call`. -/
structure PartialToolCallInfo where
  call_id : Option String := none
  tool_name : Option String := none
  args_delta : Option String := none
  model_call_id : Option String := none
deriving DecidableEq

/-- Embedding of `parse_partial_tool_call(data)`: field 1 call id, field 2
a nested ToolCall of which only the tool name is kept, field 3 the
incremental args delta, field 4 the model call id. -/
def parsePartialToolCall (data : List Nat) : PartialToolCallInfo :=
  (parse_proto_fields data).foldl
    (fun info f =>
      match f with
      | (1, 2, PValue.bytes v) =>
        match decodeUtf8? v with
        | some s => { info with call_id := some s }
        | none => info
      | (2, 2, PValue.bytes v) =>
        { info with tool_name := some (parse_tool_call v).tool_name }
      | (3, 2, PValue.bytes v) =>
        match decodeUtf8? v with
        | some s => { info with args_delta := some s }
        | none => info
      | (4, 2, PValue.bytes v) =>
        match decodeUtf8? v with
        | some s => { info with model_call_id := some s }
        | none => info
      | _ => info)
    {}

/-! ### The InteractionUpdate decoder (`parse_agent_message_detailed`,
source lines 190-279)

Each produced event is Python's `{"type": ..., "content": ...}` dict (the
`raw_hex` debugging key of tool events is not modelled).  The embedding
follows the source's `if/elif` chain exactly; the branches guarded by
`isinstance(uval, bytes)` behave identically because the scanner only
pairs wire type 2 with bytes values. -/

def FIELD_NAMES : Nat → Option String
  | 1 => some "text_delta"
  | 2 => some "tool_call_started"
  | 3 => some "tool_call_completed"
  | 4 => some "thinking_delta"
  | 7 => some "partial_tool_call"
  | 8 => some "token_delta"
  | 13 => some "heartbeat"
  | 14 => some "turn_ended"
  | _ => none

inductive EventContent where
  | text (s : String)
  | toolInfo (i : ToolCallEventInfo)
  | partInfo (p : PartialToolCallInfo)
  | empty
deriving DecidableEq

structure Event where
  type : String
  content : EventContent
deriving DecidableEq

/-- The innermost loop of the text branch: each nested field 1 of wire
type 2 whose bytes decode to a non-empty UTF-8 string appends one event. -/
def textInnerStep (field_name : String) (results : List Event) (inf : WField) :
    List Event :=
  match inf with
  | (1, 2, PValue.bytes ival) =>
    match decodeUtf8? ival with
    | some text =>
      if text ≠ "" then results ++ [⟨field_name, EventContent.text text⟩]
      else results
    | none => results
  | _ => results

/-- One iteration over an InteractionUpdate field (`for ufn, uwt, uval in
update_fields`): the source's `if/elif` chain on the field number. -/
def updateStep (results : List Event) (uf : WField) : List Event :=
  let field_name := (FIELD_NAMES uf.1).getD ("field_" ++ toString uf.1)
  if (uf.1 = 1 ∨ uf.1 = 4 ∨ uf.1 = 8) ∧ uf.2.1 = 2 then
    match uf.2.2 with
    | PValue.bytes uval =>
      (parse_proto_fields uval).foldl (textInnerStep field_name) results
    | _ => results
  else if (uf.1 = 2 ∨ uf.1 = 3) ∧ uf.2.1 = 2 then
    match uf.2.2 with
    | PValue.bytes uval =>
      results ++ [⟨field_name, EventContent.toolInfo (parse_tool_call_info uval)⟩]
    | _ => results
  else if uf.1 = 7 ∧ uf.2.1 = 2 then
    match uf.2.2 with
    | PValue.bytes uval =>
      results ++ [⟨field_name, EventContent.partInfo (parsePartialToolCall uval)⟩]
    | _ => results
  else if uf.1 = 13 then results ++ [⟨"heartbeat", EventContent.empty⟩]
  else if uf.1 = 14 then results ++ [⟨"turn_ended", EventContent.empty⟩]
  else results

/-- Embedding of `parse_agent_message_detailed(data)`: scan the outer
AgentServerMessage; every field 1 of wire type 2 is an InteractionUpdate
whose fields produce events in order. -/
def parse_agent_message_detailed (data : List Nat) : List Event :=
  (parse_proto_fields data).foldl
    (fun results f =>
      match f with
      | (1, 2, PValue.bytes val) => (parse_proto_fields val).foldl updateStep results
      | _ => results)
    []


/-! ### Properties of the tool-call decoder -/

/-- Whether a scanned field satisfies the source's selector condition
`TOOL_FIELD_MAP.get(fn) and wt == 2 and isinstance(val, bytes)`. -/
def isSelHit : WField → Bool
  | (fn, wt, PValue.bytes _) => (TOOL_FIELD_MAP fn).isSome && wt == 2
  | _ => false

theorem toolCallLoop_skip (x : WField) (l : List WField)
    (h : isSelHit x = false) : toolCallLoop (x :: l) = toolCallLoop l := by
  obtain ⟨fn, wt, val⟩ := x
  cases val with
  | int v =>
    cases htf : TOOL_FIELD_MAP fn with
    | none => simp [toolCallLoop, htf]
    | some t =>
      by_cases hw : wt = 2 <;> simp [toolCallLoop, htf, hw]
  | bytes bs =>
    simp only [isSelHit] at h
    cases htf : TOOL_FIELD_MAP fn with
    | none => simp [toolCallLoop, htf]
    | some t =>
      rw [htf] at h
      simp only [Option.isSome_some, Bool.true_and, beq_eq_false_iff_ne,
        ne_eq] at h
      simp [toolCallLoop, htf, h]

theorem toolCallLoop_hit (fn : Nat) (t : String) (bs : List Nat)
    (rest : List WField) (h : TOOL_FIELD_MAP fn = some t) :
    toolCallLoop ((fn, 2, PValue.bytes bs) :: rest) =
      { tool_name := t,
        args := (parse_proto_fields bs).foldl
          (toolArgStep (TOOL_ARG_SCHEMA t)) [] } := by
  simp [toolCallLoop, h]

/-- The field number of an abstract field. -/
def efieldNum : EField → Nat
  | .varint afn _ => afn
  | .ld afn _ => afn
  | .fixed64 afn _ => afn
  | .fixed32 afn _ => afn

/-- The argument name the decoder resolves: the tool's schema entry, or
the synthesized `field_{afn}` fallback. -/
def argName (tool : String) (afn : Nat) : String :=
  (TOOL_ARG_SCHEMA tool afn).getD ("field_" ++ toString afn)

/-- Per-argument value coercion in the amended form of claim C7: for a
length-delimited argument the first nested field 1 of wire type 2, when
present, is the only candidate (its failed UTF-8 decode omits the
argument with no fallback); direct UTF-8 decoding of the raw bytes is
attempted only when no such nested field exists.  A varint argument named
`replaceAll` becomes the boolean `value == 1`, any other varint argument
keeps its raw unsigned value. -/
def coerceArgSpec (tool : String) : EField → Option (String × ArgValue)
  | .varint afn v =>
    some (argName tool afn,
      if argName tool afn = "replaceAll" then ArgValue.bool (v == 1)
      else ArgValue.int v)
  | .ld afn bs =>
    (match firstNested1 (parse_proto_fields bs) with
      | some nval => decodeUtf8? nval
      | none => decodeUtf8? bs).map (fun s => (argName tool afn, ArgValue.str s))
  | _ => none

theorem dictInsert_of_notMem (d : List (String × ArgValue)) (k : String)
    (v : ArgValue) (h : ∀ p ∈ d, p.1 ≠ k) : dictInsert d k v = d ++ [(k, v)] := by
  have hany : ¬ d.any (fun p => p.1 == k) = true := by
    simp only [List.any_eq_true, beq_iff_eq, not_exists]
    rintro p ⟨hp, hk⟩
    exact h p hp hk
  unfold dictInsert
  rw [if_neg hany]

/-- The argument loop of `parse_tool_call` over the emitted tuples of
abstract fields whose resolved names are fresh and pairwise distinct is
the per-field coercion of the amended claim C7. -/
theorem toolArgs_fold (t : String) : ∀ (fs : List EField)
    (args : List (String × ArgValue)),
    (∀ f ∈ fs, ∀ p ∈ args, p.1 ≠ argName t (efieldNum f)) →
    (fs.map (fun f => argName t (efieldNum f))).Nodup →
    (emitted fs).foldl (toolArgStep (TOOL_ARG_SCHEMA t)) args =
      args ++ fs.filterMap (coerceArgSpec t) := by
  intro fs
  induction fs with
  | nil => intro args _ _; simp [emitted]
  | cons f fs ih =>
    intro args hdisj hnodup
    rw [emitted_cons, List.foldl_append]
    simp only [List.map_cons, List.nodup_cons] at hnodup
    obtain ⟨hnotin, hnodup2⟩ := hnodup
    have hdisjf : ∀ p ∈ args, p.1 ≠ argName t (efieldNum f) :=
      fun p hp => hdisj f (List.mem_cons_self f fs) p hp
    have hdisj2 : ∀ g ∈ fs, ∀ p ∈ args, p.1 ≠ argName t (efieldNum g) :=
      fun g hg p hp => hdisj g (List.mem_cons_of_mem f hg) p hp
    have hfresh : ∀ g ∈ fs, argName t (efieldNum f) ≠ argName t (efieldNum g) := by
      intro g hg heq
      exact hnotin (heq ▸ List.mem_map_of_mem (fun x => argName t (efieldNum x)) hg)
    cases f with
    | varint afn v =>
      have hstep : (emitted1 (EField.varint afn v)).foldl
          (toolArgStep (TOOL_ARG_SCHEMA t)) args = args ++
            [(argName t afn, if argName t afn = "replaceAll" then
              ArgValue.bool (v == 1) else ArgValue.int v)] := by
        simp only [emitted1, List.foldl_cons, List.foldl_nil, toolArgStep, argName]
        norm_num
        by_cases hrepl :
            (TOOL_ARG_SCHEMA t afn).getD ("field_" ++ toString afn) = "replaceAll"
        · rw [if_pos hrepl, if_pos hrepl]
          exact dictInsert_of_notMem _ _ _
            (by simpa [argName, efieldNum] using hdisjf)
        · rw [if_neg hrepl, if_neg hrepl]
          exact dictInsert_of_notMem _ _ _
            (by simpa [argName, efieldNum] using hdisjf)
      rw [hstep, ih (args ++ [_])
        (by
          intro g hg p hp
          rcases List.mem_append.mp hp with hp | hp
          · exact hdisj2 g hg p hp
          · rcases List.mem_singleton.mp hp with rfl
            exact fun heq => hfresh g hg (by simpa [efieldNum] using heq))
        hnodup2]
      simp [List.filterMap_cons, coerceArgSpec, efieldNum]
    | ld afn bs =>
      rcases hfn : firstNested1 (parse_proto_fields bs) with _ | nval
      · rcases hdec : decodeUtf8? bs with _ | s
        · have hstep : (emitted1 (EField.ld afn bs)).foldl
              (toolArgStep (TOOL_ARG_SCHEMA t)) args = args := by
            simp [emitted1, toolArgStep, hfn, hdec]
          rw [hstep, ih args hdisj2 hnodup2]
          simp [List.filterMap_cons, coerceArgSpec, hfn, hdec]
        · have hstep : (emitted1 (EField.ld afn bs)).foldl
              (toolArgStep (TOOL_ARG_SCHEMA t)) args =
              args ++ [(argName t afn, ArgValue.str s)] := by
            simp [emitted1, toolArgStep, hfn, hdec, argName,
              dictInsert_of_notMem _ _ _
                (by simpa [argName, efieldNum] using hdisjf)]
          rw [hstep, ih (args ++ [_])
            (by
              intro g hg p hp
              rcases List.mem_append.mp hp with hp | hp
              · exact hdisj2 g hg p hp
              · rcases List.mem_singleton.mp hp with rfl
                exact fun heq => hfresh g hg (by simpa [efieldNum] using heq))
            hnodup2]
          simp [List.filterMap_cons, coerceArgSpec, efieldNum, hfn, hdec]
      · rcases hdec : decodeUtf8? nval with _ | s
        · have hstep : (emitted1 (EField.ld afn bs)).foldl
              (toolArgStep (TOOL_ARG_SCHEMA t)) args = args := by
            simp [emitted1, toolArgStep, hfn, hdec]
          rw [hstep, ih args hdisj2 hnodup2]
          simp [List.filterMap_cons, coerceArgSpec, hfn, hdec]
        · have hstep : (emitted1 (EField.ld afn bs)).foldl
              (toolArgStep (TOOL_ARG_SCHEMA t)) args =
              args ++ [(argName t afn, ArgValue.str s)] := by
            simp [emitted1, toolArgStep, hfn, hdec, argName,
              dictInsert_of_notMem _ _ _
                (by simpa [argName, efieldNum] using hdisjf)]
          rw [hstep, ih (args ++ [_])
            (by
              intro g hg p hp
              rcases List.mem_append.mp hp with hp | hp
              · exact hdisj2 g hg p hp
              · rcases List.mem_singleton.mp hp with rfl
                exact fun heq => hfresh g hg (by simpa [efieldNum] using heq))
            hnodup2]
          simp [List.filterMap_cons, coerceArgSpec, efieldNum, hfn, hdec]
    | fixed64 afn bs =>
      have hstep : (emitted1 (EField.fixed64 afn bs)).foldl
          (toolArgStep (TOOL_ARG_SCHEMA t)) args = args := by
        simp [emitted1]
      rw [hstep, ih args hdisj2 hnodup2]
      simp [List.filterMap_cons, coerceArgSpec]
    | fixed32 afn bs =>
      have hstep : (emitted1 (EField.fixed32 afn bs)).foldl
          (toolArgStep (TOOL_ARG_SCHEMA t)) args = args := by
        simp [emitted1]
      rw [hstep, ih args hdisj2 hnodup2]
      simp [List.filterMap_cons, coerceArgSpec]

/-! ### Helper facts for the scan-completeness claim -/

/-- Fields the scanner emits as tuples (wire types 0 and 2); fixed-width
fields are skipped by the scanner. -/
def EField.emittable : EField → Prop
  | .varint _ _ => True
  | .ld _ _ => True
  | .fixed64 _ _ => False
  | .fixed32 _ _ => False

theorem emitted_length_of_emittable : ∀ fs : List EField,
    (∀ f ∈ fs, f.emittable) → (emitted fs).length = fs.length := by
  intro fs
  induction fs with
  | nil => intro _; rfl
  | cons f fs ih =>
    intro h
    have ih2 := ih (fun g hg => h g (List.mem_cons_of_mem f hg))
    cases f with
    | varint fn v => simp [emitted_cons, emitted1, ih2]
    | ld fn p => simp [emitted_cons, emitted1, ih2]
    | fixed64 fn b => exact (h _ (List.mem_cons_self _ fs)).elim
    | fixed32 fn b => exact (h _ (List.mem_cons_self _ fs)).elim

/-! ### The claims -/

/-- Claim C1, counterexample.  The claim asserts chunking invariance of the
frame demultiplexer: splitting a byte stream at any byte boundary across
two calls yields the same decoded frames as one call, with bytes of an
incomplete frame retained for the next call.  The per-chunk loop of
`modify_stream` keeps no remainder between calls: the 6-byte stream
holding one complete frame decodes to that frame in one call, but split
after its third byte the two calls decode nothing at all — the partial
header is dropped, not retained. -/
theorem c1_chunking_invariance_cex :
    [0, 0, 0] ++ [0, 1, 170] = [0, 0, 0, 0, 1, 170] ∧
    scanFrames [0, 0, 0, 0, 1, 170] = [(0, [170])] ∧
    scanFrames [0, 0, 0] ++ scanFrames [0, 1, 170] = [] := by
  decide

/-- Claim C1, amended.  The frame demultiplexer is per-call: each call
scans only its own chunk and bytes after the last complete frame of a
chunk are discarded.  Chunking invariance holds exactly when every split
point falls on a frame boundary: feeding a prefix made of complete
encoded frames and then the rest of the stream yields the same ordered
frame sequence as feeding the concatenation in one call. -/
theorem c1_frame_boundary_invariance (frames : List (Nat × List Nat))
    (tail : List Nat) (h : ∀ fr ∈ frames, fr.2.length < 4294967296) :
    scanFrames (encodeFrames frames ++ tail) = frames ++ scanFrames tail := by
  have h0 : (encodeFrames frames ++ tail).drop 0 = encodeFrames frames ++ tail := by
    simp
  rw [scanFrames_eq_framesFrom, framesFrom_msg _ frames [] 0 tail h h0]
  unfold framesFrom
  simp only [List.nil_append]
  rw [scanFramesGo_acc]
  congr 1
  have hdropo : (encodeFrames frames ++ tail).drop
      (0 + (encodeFrames frames).length) = tail := by
    simp [List.drop_left]
  rw [scanFramesGo_shift (encodeFrames frames ++ tail) tail _ []
    (0 + (encodeFrames frames).length) 0
    (by simp) (by simp) (by simpa using hdropo)]
  rw [show (encodeFrames frames ++ tail).length -
      (0 + (encodeFrames frames).length) = tail.length by
    simp [List.length_append]]
  rfl

theorem c1_frame_boundary_invariance_witness :
    scanFrames (encodeFrames [(0, [170])] ++ [0, 0]) =
      [(0, [170])] ++ scanFrames [0, 0] :=
  c1_frame_boundary_invariance [(0, [170])] [0, 0] (by decide)

/-- Claim C2.  First-match-wins tool selection: the first top-level field
whose number is in the tool-selector table with a length-delimited bytes
value determines the tool name and its argument scan, and the fields after
it (the `rest`) play no role in the result; and the concrete ToolCall
message with only field 8 populated, whose nested field 1 decodes to
`a.ts`, yields tool `read` with `filePath = "a.ts"`. -/
theorem c2_first_match_tool_selection :
    (∀ (pre : List WField) (fn : Nat) (t : String) (bs : List Nat)
      (rest : List WField), (∀ x ∈ pre, isSelHit x = false) →
      TOOL_FIELD_MAP fn = some t →
      toolCallLoop (pre ++ (fn, 2, PValue.bytes bs) :: rest) =
        { tool_name := t,
          args := (parse_proto_fields bs).foldl
            (toolArgStep (TOOL_ARG_SCHEMA t)) [] }) ∧
    parse_tool_call [66, 6, 10, 4, 97, 46, 116, 115] =
      { tool_name := "read", args := [("filePath", ArgValue.str "a.ts")] } := by
  constructor
  · intro pre fn t bs rest
    induction pre with
    | nil =>
      intro _ ht
      simpa using toolCallLoop_hit fn t bs rest ht
    | cons x xs ih =>
      intro hpre ht
      rw [List.cons_append, toolCallLoop_skip x _ (hpre x (List.mem_cons_self x xs))]
      exact ih (fun y hy => hpre y (List.mem_cons_of_mem x hy)) ht
  · decide

theorem c2_first_match_tool_selection_witness :
    toolCallLoop [(2, 0, PValue.int 7), (8, 2, PValue.bytes [10, 4, 97, 46, 116, 115]),
      (1, 2, PValue.bytes [3])] =
      { tool_name := "read", args := [("filePath", ArgValue.str "a.ts")] } :=
  (c2_first_match_tool_selection.1 [(2, 0, PValue.int 7)] 8 "read"
    [10, 4, 97, 46, 116, 115] [(1, 2, PValue.bytes [3])]
    (by decide) (by decide)).trans (by decide)

/-- Claim C3.  Varint decoding on buffer exhaustion: for every buffer and
every start offset within it, if every byte from the offset to the end of
the buffer has its high bit set (so no terminating byte is reached), the
decoder returns the value accumulated from those bytes' low seven bits
together with the end-of-buffer offset.  The decoder is a total function:
no input raises. -/
theorem c3_varint_exhaustion (data : List Nat) (offset : Nat)
    (h1 : offset ≤ data.length) (h2 : ∀ b ∈ data.drop offset, b &&& 128 ≠ 0) :
    parse_varint data offset = (varAccum (data.drop offset) 0, data.length) := by
  unfold parse_varint
  rw [parseVarintGo_exhaust _ 0 0 offset h2]
  simp only [Nat.zero_or, List.length_drop, Prod.mk.injEq, true_and]
  omega

theorem c3_varint_exhaustion_witness :
    parse_varint [128, 255] 0 = (16256, 2) :=
  (c3_varint_exhaustion [128, 255] 0 (by decide) (by decide)).trans (by decide)

/-- Claim C4.  Truncation tolerance of the field scanner: a buffer that
starts with well-formed encoded fields followed by a length-delimited
field whose declared length `L` exceeds the remaining bytes `t` yields
exactly the fields encoded before the truncation point and nothing else,
the scan stopping at the oversized field. -/
theorem c4_truncation_tolerance (fs : List EField) (hwf : ∀ f ∈ fs, f.wf)
    (fn L : Nat) (t : List Nat) (ht : t.length < L) :
    parse_proto_fields (encodeMsg fs ++
      (encodeVarint (fn <<< 3 ||| 2) ++ (encodeVarint L ++ t))) = emitted fs := by
  rw [parse_proto_fields_eq_scanFrom,
    scanFrom_msg _ fs [] 0 (encodeVarint (fn <<< 3 ||| 2) ++ (encodeVarint L ++ t))
      hwf (by simp)]
  simp only [List.nil_append]
  exact scanFrom_truncated _ (emitted fs) (0 + (encodeMsg fs).length) fn L t ht
    (by simp [List.drop_left])

theorem c4_truncation_tolerance_witness :
    parse_proto_fields [8, 5, 18, 3, 99] = [(1, 0, PValue.int 5)] :=
  (by decide : [8, 5, 18, 3, 99] = encodeMsg [EField.varint 1 5] ++
      (encodeVarint (2 <<< 3 ||| 2) ++ (encodeVarint 3 ++ [99]))) ▸
    (c4_truncation_tolerance [EField.varint 1 5]
      (by intro f hf; fin_cases hf <;> trivial) 2 3 [99] (by decide)).trans
    (by decide)

/-- Claim C5, counterexample.  The claim asserts that a validly encoded
buffer with N fields yields exactly N WireField tuples.  A buffer that is
the valid encoding of one fixed64 field yields zero tuples: fixed-width
fields are skipped, not emitted. -/
theorem c5_scan_completeness_cex :
    encodeMsg [EField.fixed64 1 [0, 0, 0, 0, 0, 0, 0, 0]] =
      [9, 0, 0, 0, 0, 0, 0, 0, 0] ∧
    parse_proto_fields [9, 0, 0, 0, 0, 0, 0, 0, 0] = [] ∧
    [EField.fixed64 1 [0, 0, 0, 0, 0, 0, 0, 0]].length = 1 := by
  refine ⟨by decide, by decide, rfl⟩

/-- Claim C5, amended.  A validly encoded buffer yields exactly the
varint and length-delimited fields among its N fields, in encoding order
(fixed64/fixed32 fields are skipped and emit nothing); in particular, when
every field is varint or length-delimited, the scanner yields exactly N
tuples. -/
theorem c5_scan_completeness_amended (fs : List EField)
    (hwf : ∀ f ∈ fs, f.wf) :
    parse_proto_fields (encodeMsg fs) = emitted fs ∧
    ((∀ f ∈ fs, f.emittable) →
      (parse_proto_fields (encodeMsg fs)).length = fs.length) := by
  have h := parse_proto_fields_encodeMsg fs hwf
  exact ⟨h, fun he => by rw [h, emitted_length_of_emittable fs he]⟩

theorem c5_scan_completeness_amended_witness :
    parse_proto_fields (encodeMsg [EField.ld 1 [170], EField.varint 3 7]) =
      emitted [EField.ld 1 [170], EField.varint 3 7] ∧
    parse_proto_fields (encodeMsg [EField.ld 1 [170], EField.varint 3 7]) =
      [(1, 2, PValue.bytes [170]), (3, 0, PValue.int 7)] ∧
    (parse_proto_fields (encodeMsg [EField.ld 1 [170], EField.varint 3 7])).length = 2 :=
  ⟨(c5_scan_completeness_amended [EField.ld 1 [170], EField.varint 3 7]
      (by intro f hf; fin_cases hf <;> trivial)).1,
    ((c5_scan_completeness_amended [EField.ld 1 [170], EField.varint 3 7]
      (by intro f hf; fin_cases hf <;> trivial)).1).trans (by decide),
    (c5_scan_completeness_amended [EField.ld 1 [170], EField.varint 3 7]
      (by intro f hf; fin_cases hf <;> trivial)).2
      (by intro f hf; fin_cases hf <;> trivial)⟩

/-- Claim C6, counterexample.  The claim asserts that for a text-kind
InteractionUpdate field the decoder emits the Update with the wrapped
text, omitting it only when the text cannot be decoded.  The buffer
encoding field1 -> (field1 -> (field1 -> "")) wraps the empty string,
which decodes successfully, yet the decoder emits nothing: the source's
`if text:` also drops empty text. -/
theorem c6_text_update_cex :
    [10, 4, 10, 2, 10, 0] = encodeMsg [EField.ld 1 (encodeMsg [EField.ld 1
      (encodeMsg [EField.ld 1 []])])] ∧
    decodeUtf8? [] = some "" ∧
    parse_agent_message_detailed [10, 4, 10, 2, 10, 0] = [] := by
  decide

/-- Claim C6, amended.  For an InteractionUpdate whose single field has
number 1, 4 or 8 (TextDelta/ThinkingDelta/TokenDelta) and is
length-delimited, the decoder peels the one-level wrapper whose own field
1 holds the text bytes and emits the corresponding Update with the decoded
text; the Update is omitted when the text cannot be decoded as UTF-8 or
decodes to the empty string. -/
theorem c6_text_update_amended (ufn : Nat) (txt : List Nat)
    (h : ufn = 1 ∨ ufn = 4 ∨ ufn = 8) :
    parse_agent_message_detailed (encodeMsg [EField.ld 1 (encodeMsg [EField.ld ufn
      (encodeMsg [EField.ld 1 txt])])]) =
      (match decodeUtf8? txt with
        | some s => if s ≠ "" then
            [⟨(FIELD_NAMES ufn).getD ("field_" ++ toString ufn),
              EventContent.text s⟩]
          else []
        | none => []) := by
  have h1 : parse_proto_fields (encodeMsg [EField.ld 1 (encodeMsg [EField.ld ufn
      (encodeMsg [EField.ld 1 txt])])]) =
      [(1, 2, PValue.bytes (encodeMsg [EField.ld ufn (encodeMsg [EField.ld 1 txt])]))] := by
    rw [parse_proto_fields_encodeMsg _ (by intro f hf; fin_cases hf <;> trivial)]
    simp [emitted, emitted1]
  have h2 : parse_proto_fields (encodeMsg [EField.ld ufn (encodeMsg [EField.ld 1 txt])]) =
      [(ufn, 2, PValue.bytes (encodeMsg [EField.ld 1 txt]))] := by
    rw [parse_proto_fields_encodeMsg _ (by intro f hf; fin_cases hf <;> trivial)]
    simp [emitted, emitted1]
  have h3 : parse_proto_fields (encodeMsg [EField.ld 1 txt]) =
      [(1, 2, PValue.bytes txt)] := by
    rw [parse_proto_fields_encodeMsg _ (by intro f hf; fin_cases hf <;> trivial)]
    simp [emitted, emitted1]
  unfold parse_agent_message_detailed
  rw [h1]
  simp only [List.foldl_cons, List.foldl_nil]
  rw [h2]
  simp only [List.foldl_cons, List.foldl_nil, updateStep]
  rcases h with rfl | rfl | rfl <;>
  · norm_num
    rw [h3]
    simp only [List.foldl_cons, List.foldl_nil, textInnerStep]
    rcases hdec : decodeUtf8? txt with _ | s
    · simp
    · by_cases hs : s = "" <;> simp [hs]

theorem c6_text_update_amended_witness :
    parse_agent_message_detailed (encodeMsg [EField.ld 1 (encodeMsg [EField.ld 4
      (encodeMsg [EField.ld 1 [104, 105]])])]) =
      [⟨"thinking_delta", EventContent.text "hi"⟩] :=
  (c6_text_update_amended 4 [104, 105] (Or.inr (Or.inl rfl))).trans (by decide)

/-- Claim C7, counterexample.  The claim asserts that a length-delimited
argument falls back to direct UTF-8 decoding of the raw bytes whenever the
one-level-wrapped interpretation does not apply, omitting the argument
only when both fail.  In the edit ToolCall below the argument bytes
`[10, 1, 195, 169]` scan to a nested field 1 whose single byte `0xC3`
is not decodable, while the raw bytes themselves decode fine; the source
performs no fallback after the nested candidate fails, so the argument is
omitted even though the claim requires it to be present. -/
theorem c7_arg_coercion_cex :
    [98, 6, 10, 4, 10, 1, 195, 169] =
      encodeMsg [EField.ld 12 (encodeMsg [EField.ld 1 [10, 1, 195, 169]])] ∧
    firstNested1 (parse_proto_fields [10, 1, 195, 169]) = some [195] ∧
    decodeUtf8? [195] = none ∧
    decodeUtf8? [10, 1, 195, 169] = some "\n\u0001é" ∧
    parse_tool_call [98, 6, 10, 4, 10, 1, 195, 169] =
      { tool_name := "edit", args := [] } := by
  decide

/-- Claim C7, amended.  For a selected tool's nested arguments (with
pairwise distinct resolved names): a length-delimited argument takes the
first nested field 1 of wire type 2 as its only string candidate — the
argument is omitted when that candidate fails UTF-8 decoding, with no
fallback — and direct UTF-8 decoding of the raw bytes is attempted only
when no such nested field exists; a varint argument named `replaceAll`
coerces to the boolean `value == 1` and any other varint argument keeps
its raw unsigned value, as `coerceArgSpec` states field by field. -/
theorem c7_arg_coercion_amended (toolFn : Nat) (t : String)
    (ht : TOOL_FIELD_MAP toolFn = some t) (argFs : List EField)
    (hwf : ∀ f ∈ argFs, f.wf)
    (hnodup : (argFs.map (fun f => argName t (efieldNum f))).Nodup) :
    parse_tool_call (encodeMsg [EField.ld toolFn (encodeMsg argFs)]) =
      { tool_name := t, args := argFs.filterMap (coerceArgSpec t) } := by
  unfold parse_tool_call
  rw [parse_proto_fields_encodeMsg [EField.ld toolFn (encodeMsg argFs)]
    (by intro f hf; fin_cases hf <;> trivial)]
  have he : emitted [EField.ld toolFn (encodeMsg argFs)] =
      [(toolFn, 2, PValue.bytes (encodeMsg argFs))] := by
    simp [emitted, emitted1]
  rw [he, toolCallLoop_hit _ _ _ _ ht, parse_proto_fields_encodeMsg argFs hwf,
    toolArgs_fold t argFs [] (by simp) hnodup]
  simp

theorem c7_arg_coercion_amended_witness :
    parse_tool_call (encodeMsg [EField.ld 12
      (encodeMsg [EField.ld 1 [104, 105], EField.varint 4 1])]) =
      { tool_name := "edit",
        args := [("filePath", ArgValue.str "hi"), ("replaceAll", ArgValue.bool true)] } :=
  (c7_arg_coercion_amended 12 "edit" (by decide)
    [EField.ld 1 [104, 105], EField.varint 4 1]
    (by intro f hf; fin_cases hf <;> trivial) (by decide)).trans (by decide)

/-- Claim C8.  Varint round-trip: for every value below `2 ^ 35`, decoding
its standard protobuf varint encoding yields the value back, with the
returned offset pointing just past the encoding. -/
theorem c8_varint_round_trip (v : Nat) (h : v < 2 ^ 35) :
    parse_varint (encodeVarint v) 0 = (v, (encodeVarint v).length) := by
  have hd : (encodeVarint v).drop 0 = encodeVarint v ++ [] := by simp
  simpa using parse_varint_encode_at (encodeVarint v) 0 v [] hd

theorem c8_varint_round_trip_witness :
    parse_varint (encodeVarint 300) 0 = (300, 2) := by
  rw [c8_varint_round_trip 300 (by norm_num)]
  decide

/-- Claim C9, counterexample.  The claim asserts every tuple the scanner
produces, on any input, has `fieldNumber ≥ 1`.  The one-byte buffer `[0]`
decodes to a tag of zero: the scanner emits the tuple `(0, 0, 0)` whose
field number is 0. -/
theorem c9_wirefield_wf_cex :
    parse_proto_fields [0] = [(0, 0, PValue.int 0)] ∧
    ¬ (∀ x ∈ parse_proto_fields [0], 1 ≤ x.1) := by
  decide

/-- Claim C9, amended.  Every WireField tuple produced by the scanner on
any input buffer has wire type 0 or 2 (hence within `{0, 1, 2, 5}`);
`fieldNumber ≥ 1` is not guaranteed on arbitrary input, since a tag varint
below 8 yields field number 0. -/
theorem c9_wirefield_wiretype_amended (data : List Nat) (x : WField)
    (hx : x ∈ parse_proto_fields data) : x.2.1 = 0 ∨ x.2.1 = 2 :=
  parse_proto_fields_wiretype data x hx

theorem c9_wirefield_wiretype_amended_witness :
    ((1, 0, PValue.int 44) : WField).2.1 = 0 ∨
      ((1, 0, PValue.int 44) : WField).2.1 = 2 :=
  c9_wirefield_wiretype_amended [8, 172] (1, 0, PValue.int 44) (by decide)

/-- Claim C10.  When the buffer ends exactly after a wire-type-0 field's
tag (`cont = []`) or inside that field's value varint (`cont` a run of
continuation bytes with the high bit set), the scanner still appends that
final field, with the partially accumulated value — 0 when no value bytes
remain — so a truncated trailing varint field is indistinguishable in the
output from a complete field carrying the same value. -/
theorem c10_truncated_trailing_varint (fs : List EField)
    (hwf : ∀ f ∈ fs, f.wf) (n : Nat) (cont : List Nat)
    (hc : ∀ b ∈ cont, b &&& 128 ≠ 0) :
    parse_proto_fields (encodeMsg fs ++ (encodeVarint (n <<< 3 ||| 0) ++ cont)) =
      emitted fs ++ [(n, 0, PValue.int (varAccum cont 0))] := by
  rw [parse_proto_fields_eq_scanFrom,
    scanFrom_msg _ fs [] 0 (encodeVarint (n <<< 3 ||| 0) ++ cont) hwf (by simp)]
  simp only [List.nil_append]
  exact scanFrom_trailing_varint _ (emitted fs) (0 + (encodeMsg fs).length) n cont hc
    (by simp [List.drop_left])

theorem c10_truncated_trailing_varint_witness :
    parse_proto_fields (encodeMsg [] ++ (encodeVarint (1 <<< 3 ||| 0) ++ [172])) =
      emitted [] ++ [(1, 0, PValue.int (varAccum [172] 0))] :=
  c10_truncated_trailing_varint [] (by simp) 1 [172] (by decide)
